import Mathlib

/-!
Verification development for `src/env/HAN.py`: a Heterogeneous Graph Attention
Network (HAN) variant.  The Python module is shallowly embedded here:

* scipy sparse adjacency matrices become `SMat` (exact rationals `ℚ` stand in
  for Python floats, so that every comparison the code makes is modelled
  exactly);
* `HANLayer.metapath_reachable_graph` becomes `metapath_reachable_graph`,
  returning `Sum ℚ DGLGraph` — `Sum.inl` models the Python path that returns
  the density as a bare float, `Sum.inr` the path that returns a DGL graph;
* the first loop of `HANLayer.forward` (cache lookup, construction, pruning,
  optimizer param-group addition, mutation of `meta_pathset`) becomes the step
  function `processOne` folded by `forwardLoop`, with an explicit event trace;
* `SemanticAttention.forward`, `HAN.forward`, `HAN.get_embedding` and the
  `reset` machinery are embedded further below.
-/

namespace HANSpec

/-- Sparse matrix over `ℚ`, modelling a scipy CSR matrix: a shape
`(rows, cols)` together with the entry at each position. -/
structure SMat where
  rows : Nat
  cols : Nat
  entry : Nat → Nat → ℚ

/-- Matrix product, modelling `adj * g.adj(etype, scipy_fmt='csr')`. -/
def SMat.mul (A B : SMat) : SMat :=
  ⟨A.rows, B.cols,
    fun i j => ((List.range A.cols).map (fun k => A.entry i k * B.entry k j)).sum⟩

/-- Adjacency product of a metapath, modelling
`adj = 1; for etype in metapath: adj = adj * g.adj(etype=etype, ...)`.
Multiplying the scalar `1` by the first adjacency matrix yields that matrix,
so for a nonempty metapath the loop is a left fold starting at `g e₀`.
(The Python code crashes on an empty metapath at `adj.nonzero()`; the junk
value returned here for `[]` has zero rows and is excluded by the
`0 < rows` hypotheses of the theorems below.) -/
def metapathAdj (g : String → SMat) (metapath : List String) : SMat :=
  match metapath with
  | [] => ⟨0, 0, fun _ _ => 0⟩
  | e :: es => es.foldl (fun A t => A.mul (g t)) (g e)

/-- Positions of the nonzero entries in row-major order, modelling
`adj.nonzero()` (CSR order). -/
def SMat.nodePairs (A : SMat) : List (Nat × Nat) :=
  (List.range A.rows).flatMap (fun i =>
    ((List.range A.cols).filter (fun j => decide (A.entry i j ≠ 0))).map (fun j => (i, j)))

/-- Number of stored nonzero entries, modelling `adj.nnz` (adjacency products
of 0/1 matrices have no explicit zeros, so stored entries = nonzero entries). -/
def SMat.nnz (A : SMat) : Nat := A.nodePairs.length

/-- Density as computed by the code: `adj.nnz / adj.shape[0] / adj.shape[0]`. -/
def SMat.density (A : SMat) : ℚ := (A.nnz : ℚ) / (A.rows : ℚ) / (A.rows : ℚ)

/-- Nonzero positions paired with their values, modelling the alignment of
`adj.nonzero()` with `adj.data` (both in CSR row-major order). -/
def SMat.pairsData (A : SMat) : List ((Nat × Nat) × ℚ) :=
  A.nodePairs.map (fun p => (p, A.entry p.1 p.2))

/-- Comparison by stored value, the key `np.argsort(adj.data)` sorts by. -/
def wle (a b : (Nat × Nat) × ℚ) : Prop := a.2 ≤ b.2

instance : DecidableRel wle := fun a b => inferInstanceAs (Decidable (a.2 ≤ b.2))

instance : IsTotal ((Nat × Nat) × ℚ) wle := ⟨fun a b => le_total a.2 b.2⟩

instance : IsTrans ((Nat × Nat) × ℚ) wle := ⟨fun _ _ _ h1 h2 => le_trans h1 h2⟩

/-- Last `k` elements after sorting ascending by value: models
`np.argsort(adj.data)[-k:]` followed by gathering.  Python's `a[-0:]` is the
whole array, hence the `k = 0` case. -/
def topkLast (k : Nat) (l : List ((Nat × Nat) × ℚ)) : List ((Nat × Nat) × ℚ) :=
  let s := List.insertionSort wle l
  if k = 0 then s else s.drop (s.length - k)

/-- Sparsification budget `sum(adj.shape) * 5000` of the top-k step. -/
def sparsK (A : SMat) : Nat := (A.rows + A.cols) * 5000

/-- Weighted node pairs surviving top-k sparsification. -/
def keptPairs (A : SMat) : List ((Nat × Nat) × ℚ) := topkLast (sparsK A) A.pairsData

/-- Weighted node pairs discarded by top-k sparsification: the prefix of the
ascending sort that `[-k:]` slicing drops. -/
def droppedPairs (A : SMat) : List ((Nat × Nat) × ℚ) :=
  (List.insertionSort wle A.pairsData).take
    ((List.insertionSort wle A.pairsData).length - sparsK A)

/-- Node pairs kept for graph construction, modelling `modified_node_pairs`:
top-k sparsification (keep the `sum(adj.shape) * 5000` largest-weight pairs)
only when the metapath has length `> 1`. -/
def modifiedNodePairs (A : SMat) (mplen : Nat) : List (Nat × Nat) :=
  if 1 < mplen then (keptPairs A).map Prod.fst
  else A.nodePairs

/-- Homogeneous DGL graph: a node count and a directed edge list. -/
structure DGLGraph where
  numNodes : Nat
  edges : List (Nat × Nat)
deriving DecidableEq

/-- Deduplicate parallel edges, modelling `dgl.graph(...).to_simple()`. -/
def toSimple (g : DGLGraph) : DGLGraph := ⟨g.numNodes, g.edges.dedup⟩

/-- Add every reverse edge and deduplicate, modelling `dgl.to_bidirected`. -/
def toBidirected (g : DGLGraph) : DGLGraph :=
  ⟨g.numNodes, (g.edges ++ g.edges.map (fun p => (p.2, p.1))).dedup⟩

/-- Model of `HANLayer.metapath_reachable_graph`: build the adjacency product,
return the density (`Sum.inl`) if it exceeds the threshold, otherwise build
the (possibly top-k sparsified) graph on `sum(adj.shape)` nodes (`Sum.inr`). -/
def metapath_reachable_graph (th : ℚ) (g : String → SMat) (metapath : List String) :
    Sum ℚ DGLGraph :=
  if (metapathAdj g metapath).density > th then Sum.inl (metapathAdj g metapath).density
  else Sum.inr (toBidirected (toSimple
    ⟨(metapathAdj g metapath).rows + (metapathAdj g metapath).cols,
     modifiedNodePairs (metapathAdj g metapath) metapath.length⟩))

/-- Metapath values: a metapath is the list of its edge-type names. -/
abbrev MP := List String

/-- Cache key of a metapath, modelling `''.join(map(str, meta_path))`
(edge types are strings, so `str` is the identity). -/
def mpKey (m : MP) : String := String.join m

/-- Persistent per-layer state of `HANLayer` relevant to the first loop of
`forward`: the subgraph cache `sg_dict`, the pruned-density cache
`large_graph`, the per-metapath GAT sublayers `gat_layers` (modelled by a
fresh parameter-id per created sublayer), the fresh-id counter, and
`useless_flag`. -/
structure LayerDicts where
  sg_dict : String → Option DGLGraph
  large_graph : String → Option ℚ
  gat_layers : String → Option Nat
  freshId : Nat
  useless_flag : Bool

/-- Pointwise update of a string-keyed dictionary, modelling `d[k] = v`. -/
def updO {α : Type} (f : String → Option α) (k : String) (v : α) :
    String → Option α :=
  fun k2 => if k2 = k then some v else f k2

/-- Observable events of one iteration of the first loop of
`HANLayer.forward`: a call to `metapath_reachable_graph` for a key, and a call
to `optimizer.add_param_group` for the fresh GATConv of a key. -/
inductive Ev where
  | construct (k : String)
  | addParamGroup (k : String)
deriving DecidableEq

/-- State threaded through the first loop of `HANLayer.forward`: the layer
dictionaries, the local `meta_paths` list, the caller-supplied `meta_pathset`
(mutated in place), and the event trace. -/
structure CallState where
  layer : LayerDicts
  meta_paths : List MP
  meta_pathset : List MP
  trace : List Ev

/-- Outcome of lines 72–78 of `HAN.py`: a freshly constructed metapath graph
came back as a density float, so the density is cached in `large_graph`, the
metapath is removed from both `meta_paths` and `meta_pathset`, and
`useless_flag` is set. -/
def stepInl (c : CallState) (m : MP) (d : ℚ) : CallState :=
  { layer := { c.layer with
                 large_graph := updO c.layer.large_graph (mpKey m) d
                 useless_flag := true }
    meta_paths := c.meta_paths.erase m
    meta_pathset := c.meta_pathset.erase m
    trace := c.trace ++ [Ev.construct (mpKey m)] }

/-- Outcome of lines 79–87 of `HAN.py`: a usable subgraph is cached in
`sg_dict`, a fresh GATConv enters `gat_layers`, and its parameters are handed
to the optimizer via `add_param_group`. -/
def stepInr (c : CallState) (m : MP) (gr : DGLGraph) : CallState :=
  { layer := { c.layer with
                 sg_dict := updO c.layer.sg_dict (mpKey m) gr
                 gat_layers := updO c.layer.gat_layers (mpKey m) c.layer.freshId
                 freshId := c.layer.freshId + 1 }
    meta_paths := c.meta_paths
    meta_pathset := c.meta_pathset
    trace := c.trace ++ [Ev.construct (mpKey m), Ev.addParamGroup (mpKey m)] }

/-- Outcome of lines 91–94 of `HAN.py`: the key is cached in `large_graph`,
so the metapath is removed from both lists and `useless_flag` is set. -/
def stepElif (c : CallState) (m : MP) : CallState :=
  { layer := { c.layer with useless_flag := true }
    meta_paths := c.meta_paths.erase m
    meta_pathset := c.meta_pathset.erase m
    trace := c.trace }

/-- One iteration of the first loop of `HANLayer.forward` on metapath `m`:
if the key is in neither cache, construct (float results prune, graph results
are cached with a fresh optimizer-registered GATConv); else if the key is in
`large_graph`, prune from the cache; else (key cached in `sg_dict`) do
nothing. -/
def processOne (th : ℚ) (g : String → SMat) (c : CallState) (m : MP) : CallState :=
  if (c.layer.sg_dict (mpKey m)).isNone ∧ (c.layer.large_graph (mpKey m)).isNone then
    match metapath_reachable_graph th g m with
    | Sum.inl d => stepInl c m d
    | Sum.inr gr => stepInr c m gr
  else if (c.layer.large_graph (mpKey m)).isSome then stepElif c m
  else c

/-- First loop of `HANLayer.forward`: reset `useless_flag`, snapshot
`meta_paths = list(tuple(mp) for mp in meta_pathset)`, and iterate
`processOne` over that snapshot (`for meta_path in meta_paths[:]`). -/
def forwardLoop (th : ℚ) (g : String → SMat) (L : LayerDicts) (pathset : List MP) :
    CallState :=
  pathset.foldl (processOne th g)
    { layer := { L with useless_flag := false }
      meta_paths := pathset
      meta_pathset := pathset
      trace := [] }

/-- Layer dictionaries at `HANLayer.__init__`: empty caches, no sublayers. -/
def initDicts : LayerDicts :=
  { sg_dict := fun _ => none
    large_graph := fun _ => none
    gat_layers := fun _ => none
    freshId := 0
    useless_flag := false }

/-- Lifetime of a layer: a sequence of `forward` calls, each with its own
`meta_pathset`, threading the layer dictionaries and accumulating the trace. -/
def runCalls (th : ℚ) (g : String → SMat) (L : LayerDicts)
    (calls : List (List MP)) : LayerDicts × List Ev :=
  calls.foldl
    (fun acc ps =>
      ((forwardLoop th g acc.1 ps).layer, acc.2 ++ (forwardLoop th g acc.1 ps).trace))
    (L, [])

/-- Number of `construct k` events in a trace: how many times
`metapath_reachable_graph` ran for key `k`. -/
def countConstruct (k : String) (tr : List Ev) : Nat :=
  tr.count (Ev.construct k)

/-- Number of `addParamGroup k` events in a trace. -/
def countAddParam (k : String) (tr : List Ev) : Nat :=
  tr.count (Ev.addParamGroup k)

/-- Key `k` is present in one of the two construction caches. -/
def dictHas (L : LayerDicts) (k : String) : Prop :=
  (L.sg_dict k).isSome ∨ (L.large_graph k).isSome

instance (L : LayerDicts) (k : String) : Decidable (dictHas L k) :=
  inferInstanceAs (Decidable (_ ∨ _))

/-- The two caches are disjoint and every cached subgraph has its GAT
sublayer: invariant of every reachable layer state. -/
def GoodDicts (L : LayerDicts) : Prop :=
  (∀ k, ¬((L.sg_dict k).isSome ∧ (L.large_graph k).isSome)) ∧
  (∀ k, (L.sg_dict k).isSome → (L.gat_layers k).isSome)

/-- Output of `SemanticAttention.project` on one `(D*K)`-vector: the
`Linear(in, hidden) → Tanh → Linear(hidden, 1, bias=False)` pipeline, with the
weights `W1`, `b1`, `w2` and an abstract tanh `T` (exact rationals replace
floats, so tanh and exp enter the model as function parameters). -/
def projectOut (T : ℚ → ℚ) {H D : Nat} (W1 : Fin H → Fin D → ℚ) (b1 : Fin H → ℚ)
    (w2 : Fin H → ℚ) (v : Fin D → ℚ) : ℚ :=
  ∑ hh, w2 hh * T ((∑ d, W1 hh d * v d) + b1 hh)

/-- Per-metapath pre-softmax scores, modelling `w = self.project(z).mean(0)`:
the projection of every node's row, averaged over the `N` nodes. -/
def semW (T : ℚ → ℚ) {H N M D : Nat} (W1 : Fin H → Fin D → ℚ) (b1 : Fin H → ℚ)
    (w2 : Fin H → ℚ) (z : Fin N → Fin M → Fin D → ℚ) : Fin M → ℚ :=
  fun m => (∑ n, projectOut T W1 b1 w2 (fun d => z n m d)) / (N : ℚ)

/-- Softmax over the `M` metapaths, modelling `beta = torch.softmax(w, dim=0)`
with an abstract exponential `E`. -/
def semBeta (E : ℚ → ℚ) {M : Nat} (w : Fin M → ℚ) : Fin M → ℚ :=
  fun m => E (w m) / ∑ m2, E (w m2)

/-- Expansion of the weight vector to every node, modelling
`beta.expand((z.shape[0],) + beta.shape)`. -/
def semBetaExpand (E : ℚ → ℚ) {N M : Nat} (w : Fin M → ℚ) : Fin N → Fin M → ℚ :=
  fun _ m => semBeta E w m

/-- Model of `SemanticAttention.forward`: `(beta * z).sum(1)`, an `(N, D*K)`
tensor whose `(n, d)` entry is the beta-weighted sum over the metapath
dimension. -/
def semanticAttentionF (T E : ℚ → ℚ) {H N M D : Nat} (W1 : Fin H → Fin D → ℚ)
    (b1 : Fin H → ℚ) (w2 : Fin H → ℚ) (z : Fin N → Fin M → Fin D → ℚ) :
    Fin N → Fin D → ℚ :=
  fun n d => ∑ m, semBetaExpand E (semW T W1 b1 w2 z) n m * z n m d

/-- Dense 2-d tensor: row and column counts with an entry function. -/
structure Tensor2 where
  rows : Nat
  cols : Nat
  entry : Nat → Nat → ℚ

/-- Parameters of a `torch.nn.Linear(inF, outF)` layer. -/
structure LinearQ where
  inF : Nat
  outF : Nat
  weight : Nat → Nat → ℚ
  bias : Nat → ℚ

/-- Application of a linear layer to an `(N, inF)` tensor, producing an
`(N, outF)` tensor. -/
def linearApply (lin : LinearQ) (h : Tensor2) : Tensor2 :=
  ⟨h.rows, lin.outF,
    fun n j => ((List.range lin.inF).map (fun i => lin.weight j i * h.entry n i)).sum
      + lin.bias j⟩

/-- Model of a `HAN` module: the stacked `HANLayer`s (each layer's tensor
effect abstracted as a function, since its body is the dgl sampling pipeline),
the `predict` linear head, and the set of attribute names assigned on the
instance. -/
structure HANModel where
  numLayers : Nat
  layerFn : Nat → Tensor2 → Tensor2
  predict : LinearQ
  attrs : List String

/-- Model of `HAN.__init__`: one `HANLayer` per entry of `num_heads`
(`num_heads[0]` and `num_heads[-1]` are read, so the list is nonempty in any
run that constructs an instance), a `predict = Linear(hidden_size *
num_heads[-1], out_size)` head with parameters `W`, `b`, and exactly the
attributes `layers` and `predict` assigned — in particular no `data`. -/
def hanInit (hidden_size out_size : Nat) (num_heads : List Nat)
    (layerFn : Nat → Tensor2 → Tensor2) (W : Nat → Nat → ℚ) (b : Nat → ℚ) :
    HANModel :=
  { numLayers := num_heads.length
    layerFn := layerFn
    predict := ⟨hidden_size * num_heads.getLastD 0, out_size, W, b⟩
    attrs := ["layers", "predict"] }

/-- Model of `HAN.forward`: thread `h` through each layer in order, then apply
the `predict` head. -/
def hanForwardT (m : HANModel) (h : Tensor2) : Tensor2 :=
  linearApply m.predict
    (((List.range m.numLayers).map m.layerFn).foldl (fun a f => f a) h)

/-- Model of the loop of `HAN.get_embedding` over the layer indices `todo`:
before each layer runs, its call arguments are evaluated, which reads
`self.data.features_dict`; if the attribute `data` was never assigned this
raises `AttributeError` (`none`).  Returns the list of layer indices whose
computation completed, and the result (`some h` on normal return). -/
def getEmbeddingRun (m : HANModel) (h : Tensor2) : List Nat → List Nat × Option Tensor2
  | [] => ([], some h)
  | i :: rest =>
      if "data" ∈ m.attrs then
        let r := getEmbeddingRun m (m.layerFn i h) rest
        (i :: r.1, r.2)
      else ([], none)

/-- Model of `HAN.get_embedding`: run the loop over all layer indices. -/
def get_embedding (m : HANModel) (h : Tensor2) : List Nat × Option Tensor2 :=
  getEmbeddingRun m h (List.range m.numLayers)

/-- Parameter state of one `HANLayer`'s module dictionaries, for the reset
mechanism: `gat_layers` holds the live GATConv parameters, `rest_layers` the
deep copies snapshotted at creation.  `P` is the type of one GATConv's
parameter values. -/
structure GHState (P : Type) where
  gat : String → Option P
  rest : String → Option P

/-- Events touching the parameter dictionaries: `create k p` models lines
80–87 of `HAN.py` (a fresh GATConv with parameters `p` enters `gat_layers`
and its deep copy enters `rest_layers`), `updateParam k p` models an
optimizer step writing new values into the live GATConv for `k` (deep copies
in `rest_layers` are not registered with the optimizer, so they are not
touched). -/
inductive GEv (P : Type) where
  | create (k : String) (p : P)
  | updateParam (k : String) (p : P)

/-- Effect of one parameter event. -/
def gstep {P : Type} (s : GHState P) : GEv P → GHState P
  | GEv.create k p => { gat := updO s.gat k p, rest := updO s.rest k p }
  | GEv.updateParam k p =>
      { s with gat := if (s.gat k).isSome then updO s.gat k p else s.gat }

/-- Replay a sequence of parameter events. -/
def grun {P : Type} (s : GHState P) (evs : List (GEv P)) : GHState P :=
  evs.foldl gstep s

/-- Model of `HANLayer.reset`:
`self.gat_layers.load_state_dict(self.rest_layers.state_dict())` copies every
snapshotted parameter back into the live dictionary. -/
def greset {P : Type} (s : GHState P) : GHState P :=
  { s with gat := s.rest }

/-- Model of `HAN.reset`: reset every layer. -/
def hanGReset {P : Type} (ls : List (GHState P)) : List (GHState P) :=
  ls.map greset

theorem mrg_eq_inl {th : ℚ} {g : String → SMat} {mp : List String}
    (h : (metapathAdj g mp).density > th) :
    metapath_reachable_graph th g mp = Sum.inl (metapathAdj g mp).density := by
  simp [metapath_reachable_graph, h]

theorem mrg_eq_inr {th : ℚ} {g : String → SMat} {mp : List String}
    (h : ¬ (metapathAdj g mp).density > th) :
    metapath_reachable_graph th g mp = Sum.inr (toBidirected (toSimple
      ⟨(metapathAdj g mp).rows + (metapathAdj g mp).cols,
       modifiedNodePairs (metapathAdj g mp) mp.length⟩)) := by
  simp [metapath_reachable_graph, h]

theorem mrg_isLeft_iff (th : ℚ) (g : String → SMat) (mp : List String) :
    (metapath_reachable_graph th g mp).isLeft = true ↔ (metapathAdj g mp).density > th := by
  by_cases h : (metapathAdj g mp).density > th
  · simp [mrg_eq_inl h, h]
  · simp [mrg_eq_inr h, h]

theorem processOne_fresh_inl {th : ℚ} {g : String → SMat} {c : CallState} {m : MP} {d : ℚ}
    (hs : c.layer.sg_dict (mpKey m) = none) (hl : c.layer.large_graph (mpKey m) = none)
    (hm : metapath_reachable_graph th g m = Sum.inl d) :
    processOne th g c m = stepInl c m d := by
  simp [processOne, hs, hl, hm]

theorem processOne_fresh_inr {th : ℚ} {g : String → SMat} {c : CallState} {m : MP}
    {gr : DGLGraph}
    (hs : c.layer.sg_dict (mpKey m) = none) (hl : c.layer.large_graph (mpKey m) = none)
    (hm : metapath_reachable_graph th g m = Sum.inr gr) :
    processOne th g c m = stepInr c m gr := by
  simp [processOne, hs, hl, hm]

theorem processOne_largeHit {th : ℚ} {g : String → SMat} {c : CallState} {m : MP}
    (hl : (c.layer.large_graph (mpKey m)).isSome) :
    processOne th g c m = stepElif c m := by
  have hl' : ¬ (c.layer.large_graph (mpKey m)).isNone := by
    simp [Option.isNone_iff_eq_none]
    exact Option.isSome_iff_exists.mp hl |>.elim (fun a ha => by simp [ha])
  simp [processOne, hl, hl']

theorem processOne_sgHit {th : ℚ} {g : String → SMat} {c : CallState} {m : MP}
    (hs : (c.layer.sg_dict (mpKey m)).isSome) (hl : c.layer.large_graph (mpKey m) = none) :
    processOne th g c m = c := by
  have hs' : ¬ (c.layer.sg_dict (mpKey m)).isNone := by
    simp [Option.isNone_iff_eq_none]
    exact Option.isSome_iff_exists.mp hs |>.elim (fun a ha => by simp [ha])
  simp [processOne, hs', hl]

/-- Exhaustive case analysis on one iteration of the first `forward` loop. -/
theorem processOne_split (th : ℚ) (g : String → SMat) (c : CallState) (m : MP) :
    (c.layer.sg_dict (mpKey m) = none ∧ c.layer.large_graph (mpKey m) = none ∧
      ((metapath_reachable_graph th g m = Sum.inl ((metapathAdj g m).density) ∧
         processOne th g c m = stepInl c m ((metapathAdj g m).density)) ∨
       (∃ gr, metapath_reachable_graph th g m = Sum.inr gr ∧
         processOne th g c m = stepInr c m gr)))
    ∨ ((c.layer.large_graph (mpKey m)).isSome ∧ processOne th g c m = stepElif c m)
    ∨ ((c.layer.sg_dict (mpKey m)).isSome ∧ c.layer.large_graph (mpKey m) = none ∧
        processOne th g c m = c) := by
  by_cases hl : (c.layer.large_graph (mpKey m)).isSome
  · exact Or.inr (Or.inl ⟨hl, processOne_largeHit hl⟩)
  · have hl' : c.layer.large_graph (mpKey m) = none := by
      rcases h : c.layer.large_graph (mpKey m) with _ | v
      · rfl
      · exact absurd (by simp [h]) hl
    by_cases hs : (c.layer.sg_dict (mpKey m)).isSome
    · exact Or.inr (Or.inr ⟨hs, hl', processOne_sgHit hs hl'⟩)
    · have hs' : c.layer.sg_dict (mpKey m) = none := by
        rcases h : c.layer.sg_dict (mpKey m) with _ | v
        · rfl
        · exact absurd (by simp [h]) hs
      refine Or.inl ⟨hs', hl', ?_⟩
      by_cases hd : (metapathAdj g m).density > th
      · exact Or.inl ⟨mrg_eq_inl hd, processOne_fresh_inl hs' hl' (mrg_eq_inl hd)⟩
      · exact Or.inr ⟨_, mrg_eq_inr hd, processOne_fresh_inr hs' hl' (mrg_eq_inr hd)⟩

/-- C1: `HANLayer.metapath_reachable_graph` returns the bare density float
(`Sum.inl`) iff the density `nnz / shape[0] / shape[0]` of the metapath
adjacency product exceeds `self.threshold`, and otherwise returns a
constructed graph (`Sum.inr`); the caller (`HANLayer.forward`, processing a
metapath whose key is in neither cache) discriminates the two outcomes by the
`isinstance(graph, float)` test and treats the float outcome as pruning the
metapath: the density goes into `large_graph` and the metapath is removed
from `meta_pathset`, whereas the graph outcome is cached in `sg_dict` with
`meta_pathset` untouched.  (The hypothesis `0 < rows` models that the Python
division `nnz / shape[0]` only returns at all when the source node count is
nonzero.) -/
theorem C1_density_pruning_iff (th : ℚ) (g : String → SMat) (mp : List String)
    (hmp : mp ≠ []) (hr : 0 < (metapathAdj g mp).rows) :
    ((metapath_reachable_graph th g mp).isLeft = true ↔ (metapathAdj g mp).density > th)
    ∧ ((metapathAdj g mp).density > th →
        metapath_reachable_graph th g mp = Sum.inl (metapathAdj g mp).density)
    ∧ (¬ (metapathAdj g mp).density > th →
        metapath_reachable_graph th g mp = Sum.inr (toBidirected (toSimple
          ⟨(metapathAdj g mp).rows + (metapathAdj g mp).cols,
           modifiedNodePairs (metapathAdj g mp) mp.length⟩)))
    ∧ (∀ c : CallState,
        c.layer.sg_dict (mpKey mp) = none → c.layer.large_graph (mpKey mp) = none →
        (((metapath_reachable_graph th g mp).isLeft = true →
           ((processOne th g c mp).layer.large_graph (mpKey mp)).isSome
           ∧ (processOne th g c mp).meta_pathset = c.meta_pathset.erase mp)
         ∧ ((metapath_reachable_graph th g mp).isRight = true →
           ((processOne th g c mp).layer.sg_dict (mpKey mp)).isSome
           ∧ (processOne th g c mp).meta_pathset = c.meta_pathset))) := by
  refine ⟨mrg_isLeft_iff th g mp, fun h => mrg_eq_inl h, fun h => mrg_eq_inr h,
    fun c hs hl => ⟨fun hleft => ?_, fun hright => ?_⟩⟩
  · have hd : (metapathAdj g mp).density > th := (mrg_isLeft_iff th g mp).mp hleft
    rw [processOne_fresh_inl hs hl (mrg_eq_inl hd)]
    simp [stepInl, updO]
  · have hd : ¬ (metapathAdj g mp).density > th := by
      intro hd
      rw [mrg_eq_inl hd] at hright
      simp at hright
    rw [processOne_fresh_inr hs hl (mrg_eq_inr hd)]
    simp [stepInr, updO]

/-- Concrete heterogeneous graph for witnesses: every edge type has the 1×1
all-ones adjacency matrix. -/
def gEx : String → SMat := fun _ => ⟨1, 1, fun _ _ => 1⟩

theorem C1_density_pruning_iff_witness :
    (metapath_reachable_graph 2 gEx ["ab"]).isLeft = true ↔
      (metapathAdj gEx ["ab"]).density > 2 :=
  (C1_density_pruning_iff 2 gEx ["ab"] (by decide) (by decide)).1

theorem keptPairs_eq_drop {A : SMat} (hk : sparsK A ≠ 0) :
    keptPairs A = (List.insertionSort wle A.pairsData).drop
      ((List.insertionSort wle A.pairsData).length - sparsK A) := by
  simp [keptPairs, topkLast, hk]

theorem sparsK_pos {A : SMat} (hr : 0 < A.rows) : 0 < sparsK A :=
  Nat.mul_pos (by omega) (by norm_num)

/-- C3: for a metapath of length `> 1` whose density does not exceed the
threshold, the construction keeps at most `(#source nodes + #destination
nodes) * 5000` node pairs, chosen as pairs of largest adjacency-product
weight (every dropped pair's weight is at most every kept pair's weight, and
every kept pair is one of the nonzero pairs), and the output graph is built
from exactly the kept pairs; for a metapath of length exactly 1 no
sparsification happens and all nonzero pairs are kept. -/
theorem C3_topk_sparsification (th : ℚ) (g : String → SMat) (mp : List String)
    (hlen : 1 < mp.length) (hd : ¬ (metapathAdj g mp).density > th)
    (hr : 0 < (metapathAdj g mp).rows) :
    (modifiedNodePairs (metapathAdj g mp) mp.length =
      (keptPairs (metapathAdj g mp)).map Prod.fst)
    ∧ (keptPairs (metapathAdj g mp)).length ≤ sparsK (metapathAdj g mp)
    ∧ (∀ a ∈ droppedPairs (metapathAdj g mp), ∀ b ∈ keptPairs (metapathAdj g mp),
        a.2 ≤ b.2)
    ∧ (∀ b ∈ keptPairs (metapathAdj g mp), b ∈ (metapathAdj g mp).pairsData)
    ∧ metapath_reachable_graph th g mp = Sum.inr (toBidirected (toSimple
        ⟨(metapathAdj g mp).rows + (metapathAdj g mp).cols,
         (keptPairs (metapathAdj g mp)).map Prod.fst⟩))
    ∧ (∀ mp2 : List String, mp2.length = 1 → ¬ (metapathAdj g mp2).density > th →
        metapath_reachable_graph th g mp2 = Sum.inr (toBidirected (toSimple
          ⟨(metapathAdj g mp2).rows + (metapathAdj g mp2).cols,
           (metapathAdj g mp2).nodePairs⟩))) := by
  have hk : sparsK (metapathAdj g mp) ≠ 0 := Nat.pos_iff_ne_zero.mp (sparsK_pos hr)
  have hdropEq := keptPairs_eq_drop hk
  have hsorted : List.Sorted wle (List.insertionSort wle (metapathAdj g mp).pairsData) :=
    List.sorted_insertionSort wle _
  refine ⟨by simp [modifiedNodePairs, hlen], ?_, ?_, ?_, ?_, ?_⟩
  · rw [hdropEq, List.length_drop]
    omega
  · intro a ha b hb
    rw [hdropEq] at hb
    have hpw : List.Pairwise wle
        ((List.insertionSort wle (metapathAdj g mp).pairsData).take
            ((List.insertionSort wle (metapathAdj g mp).pairsData).length -
              sparsK (metapathAdj g mp)) ++
          (List.insertionSort wle (metapathAdj g mp).pairsData).drop
            ((List.insertionSort wle (metapathAdj g mp).pairsData).length -
              sparsK (metapathAdj g mp))) := by
      rw [List.take_append_drop]
      exact hsorted
    exact (List.pairwise_append.mp hpw).2.2 a ha b hb
  · intro b hb
    rw [hdropEq] at hb
    have hmem : b ∈ List.insertionSort wle (metapathAdj g mp).pairsData :=
      (List.drop_sublist _ _).subset hb
    simpa using hmem
  · rw [mrg_eq_inr hd]
    simp [modifiedNodePairs, hlen]
  · intro mp2 hlen2 hd2
    rw [mrg_eq_inr hd2]
    simp [modifiedNodePairs, hlen2]

theorem densityEx_ab :
    ¬ (metapathAdj gEx ["a", "b"]).density > 2 := by
  norm_num [SMat.density, metapathAdj, SMat.mul, gEx, SMat.nnz, SMat.nodePairs,
    List.range_succ]

theorem C3_topk_sparsification_witness :
    (keptPairs (metapathAdj gEx ["a", "b"])).length ≤ sparsK (metapathAdj gEx ["a", "b"]) :=
  (C3_topk_sparsification 2 gEx ["a", "b"] (by decide) densityEx_ab (by decide)).2.1

/-- C6: `SemanticAttention.forward` computes one scalar weight per metapath by
a softmax over the `M` metapaths — the weights are nonnegative and sum to 1 —
applies the same weight vector to every node (the `expand`), and returns the
weighted sum over the metapath dimension, an `(N, D*K)` output (the result
type `Fin N → Fin D → ℚ`, where `D` stands for the stacked feature width
`D*K`).  The abstract `E` models `exp`; positivity is its defining property
used here. -/
theorem C6_semantic_attention (T E : ℚ → ℚ) {H N M D : Nat}
    (W1 : Fin H → Fin D → ℚ) (b1 : Fin H → ℚ) (w2 : Fin H → ℚ)
    (z : Fin N → Fin M → Fin D → ℚ)
    (hE : ∀ x, 0 < E x) (hM : 0 < M) :
    (∀ m, 0 ≤ semBeta E (semW T W1 b1 w2 z) m)
    ∧ (∑ m, semBeta E (semW T W1 b1 w2 z) m = 1)
    ∧ (∀ n1 n2 : Fin N, ∀ m, semBetaExpand E (semW T W1 b1 w2 z) n1 m
        = semBetaExpand E (semW T W1 b1 w2 z) n2 m)
    ∧ (∀ n d, semanticAttentionF T E W1 b1 w2 z n d
        = ∑ m, semBeta E (semW T W1 b1 w2 z) m * z n m d) := by
  have hinst : Nonempty (Fin M) := ⟨⟨0, hM⟩⟩
  have hS : 0 < ∑ m2, E (semW T W1 b1 w2 z m2) :=
    Finset.sum_pos (fun i _ => hE _) Finset.univ_nonempty
  refine ⟨fun m => div_nonneg (hE _).le hS.le, ?_, fun n1 n2 m => rfl, fun n d => rfl⟩
  rw [show (∑ m, semBeta E (semW T W1 b1 w2 z) m)
      = (∑ m, E (semW T W1 b1 w2 z m)) / (∑ m2, E (semW T W1 b1 w2 z m2)) from
    (Finset.sum_div _ _ _).symm]
  exact div_self hS.ne'

theorem C6_semantic_attention_witness :
    ∑ m, semBeta (fun _ => (1 : ℚ))
      (semW (fun x => x) (fun (_ : Fin 1) (_ : Fin 1) => (0 : ℚ)) (fun _ => 0) (fun _ => 0)
        (fun (_ : Fin 1) (_ : Fin 1) (_ : Fin 1) => (0 : ℚ))) m = 1 :=
  (C6_semantic_attention (fun x => x) (fun _ => (1 : ℚ))
    (fun (_ : Fin 1) (_ : Fin 1) => (0 : ℚ)) (fun _ => 0) (fun _ => 0)
    (fun _ _ _ => 0) (fun _ => one_pos) (by decide)).2.1

/-- C7: `HAN.forward` threads `h` through each `HANLayer` in order (a left
fold over the layer list) and then applies the final `predict` linear layer,
so the output has `out_size` columns per node — `out_size` being the value
passed to `HAN.__init__` — and its entries are the affine image of the last
layer's output under `predict`. -/
theorem C7_han_forward_shape (hidden out : Nat) (nh : List Nat)
    (lf : Nat → Tensor2 → Tensor2) (W : Nat → Nat → ℚ) (b : Nat → ℚ) (h : Tensor2) :
    ((hanForwardT (hanInit hidden out nh lf W b) h).cols = out)
    ∧ ((hanForwardT (hanInit hidden out nh lf W b) h).rows =
        (((List.range nh.length).map lf).foldl (fun a f => f a) h).rows)
    ∧ (hanForwardT (hanInit hidden out nh lf W b) h =
        linearApply (hanInit hidden out nh lf W b).predict
          (((List.range nh.length).map lf).foldl (fun a f => f a) h))
    ∧ (∀ n j, (hanForwardT (hanInit hidden out nh lf W b) h).entry n j =
        ((List.range (hidden * nh.getLastD 0)).map (fun i => W j i *
          ((((List.range nh.length).map lf).foldl (fun a f => f a) h).entry n i))).sum
          + b j) := by
  exact ⟨rfl, rfl, rfl, fun n j => rfl⟩

/-- C10: `HAN.__init__` never assigns `self.data` (only `layers` and
`predict`), and it always creates at least one layer (it reads `num_heads[0]`
and `num_heads[-1]`, so `num_heads` is nonempty whenever an instance exists);
hence every `get_embedding` call on a freshly constructed model evaluates
`self.data.features_dict` while building the first layer call's arguments and
raises `AttributeError` (`none`) with no layer computation completed (the
empty completed-layer list), so `get_embedding` never returns normally. -/
theorem C10_get_embedding_raises (hidden out : Nat) (nh : List Nat)
    (lf : Nat → Tensor2 → Tensor2) (W : Nat → Nat → ℚ) (b : Nat → ℚ) (h : Tensor2)
    (hnh : nh ≠ []) :
    ("data" ∉ (hanInit hidden out nh lf W b).attrs)
    ∧ (0 < (hanInit hidden out nh lf W b).numLayers)
    ∧ (get_embedding (hanInit hidden out nh lf W b) h = ([], none)) := by
  have hlen : 0 < nh.length := List.length_pos.mpr hnh
  refine ⟨by simp [hanInit], hlen, ?_⟩
  obtain ⟨n, hn⟩ : ∃ n, nh.length = n + 1 := ⟨nh.length - 1, by omega⟩
  have hattr : "data" ∉ (hanInit hidden out nh lf W b).attrs := by simp [hanInit]
  show getEmbeddingRun _ h (List.range (hanInit hidden out nh lf W b).numLayers) = ([], none)
  have : (hanInit hidden out nh lf W b).numLayers = n + 1 := hn
  rw [this, List.range_succ_eq_map]
  simp [getEmbeddingRun, hattr]

theorem C10_get_embedding_raises_witness :
    get_embedding (hanInit 4 3 [2] (fun _ t => t) (fun _ _ => 0) (fun _ => 0))
      ⟨1, 1, fun _ _ => 0⟩ = ([], none) :=
  (C10_get_embedding_raises 4 3 [2] (fun _ t => t) (fun _ _ => 0) (fun _ => 0)
    ⟨1, 1, fun _ _ => 0⟩ (by decide)).2.2

theorem processOne_sg_mono {th : ℚ} {g : String → SMat} {c : CallState} {m : MP} {k : String}
    (h : (c.layer.sg_dict k).isSome) :
    ((processOne th g c m).layer.sg_dict k).isSome := by
  rcases processOne_split th g c m with
    ⟨hs, hl, (⟨hmr, he⟩ | ⟨gr, hmr, he⟩)⟩ | ⟨hl, he⟩ | ⟨hs, hl, he⟩ <;> rw [he]
  · exact h
  · simp only [stepInr, updO]
    split
    · simp
    · exact h
  · exact h
  · exact h

theorem processOne_large_mono {th : ℚ} {g : String → SMat} {c : CallState} {m : MP} {k : String}
    (h : (c.layer.large_graph k).isSome) :
    ((processOne th g c m).layer.large_graph k).isSome := by
  rcases processOne_split th g c m with
    ⟨hs, hl, (⟨hmr, he⟩ | ⟨gr, hmr, he⟩)⟩ | ⟨hl, he⟩ | ⟨hs, hl, he⟩ <;> rw [he]
  · simp only [stepInl, updO]
    split
    · simp
    · exact h
  · exact h
  · exact h
  · exact h

theorem processOne_gat_mono {th : ℚ} {g : String → SMat} {c : CallState} {m : MP} {k : String}
    (h : (c.layer.gat_layers k).isSome) :
    ((processOne th g c m).layer.gat_layers k).isSome := by
  rcases processOne_split th g c m with
    ⟨hs, hl, (⟨hmr, he⟩ | ⟨gr, hmr, he⟩)⟩ | ⟨hl, he⟩ | ⟨hs, hl, he⟩ <;> rw [he]
  · exact h
  · simp only [stepInr, updO]
    split
    · simp
    · exact h
  · exact h
  · exact h

theorem processOne_dictHas_mono {th : ℚ} {g : String → SMat} {c : CallState} {m : MP}
    {k : String} (h : dictHas c.layer k) : dictHas (processOne th g c m).layer k := by
  rcases h with h | h
  · exact Or.inl (processOne_sg_mono h)
  · exact Or.inr (processOne_large_mono h)

/-- Processing metapath `m` touches no cache entry at a key other than
`mpKey m`. -/
theorem processOne_frame {th : ℚ} {g : String → SMat} (c : CallState) (m : MP) {k : String}
    (hk : k ≠ mpKey m) :
    (processOne th g c m).layer.sg_dict k = c.layer.sg_dict k
    ∧ (processOne th g c m).layer.large_graph k = c.layer.large_graph k
    ∧ (processOne th g c m).layer.gat_layers k = c.layer.gat_layers k := by
  rcases processOne_split th g c m with
    ⟨hs, hl, (⟨hmr, he⟩ | ⟨gr, hmr, he⟩)⟩ | ⟨hl, he⟩ | ⟨hs, hl, he⟩ <;> rw [he]
  · exact ⟨rfl, by simp [stepInl, updO, hk], rfl⟩
  · exact ⟨by simp [stepInr, updO, hk], rfl, by simp [stepInr, updO, hk]⟩
  · exact ⟨rfl, rfl, rfl⟩
  · exact ⟨rfl, rfl, rfl⟩

/-- After processing metapath `m`, its key is in one of the two caches. -/
theorem processOne_self_has (th : ℚ) (g : String → SMat) (c : CallState) (m : MP) :
    dictHas (processOne th g c m).layer (mpKey m) := by
  rcases processOne_split th g c m with
    ⟨hs, hl, (⟨hmr, he⟩ | ⟨gr, hmr, he⟩)⟩ | ⟨hl, he⟩ | ⟨hs, hl, he⟩ <;> rw [he]
  · exact Or.inr (by simp [stepInl, updO])
  · exact Or.inl (by simp [stepInr, updO])
  · exact Or.inr hl
  · exact Or.inl hs

theorem processOne_good {th : ℚ} {g : String → SMat} {c : CallState} {m : MP}
    (h : GoodDicts c.layer) : GoodDicts (processOne th g c m).layer := by
  rcases processOne_split th g c m with
    ⟨hs, hl, (⟨hmr, he⟩ | ⟨gr, hmr, he⟩)⟩ | ⟨hl, he⟩ | ⟨hs, hl, he⟩ <;> rw [he]
  · constructor
    · intro k hk
      by_cases hkk : k = mpKey m
      · subst hkk
        exact absurd hk.1 (by simp [stepInl, hs])
      · exact h.1 k ⟨hk.1, by simpa [stepInl, updO, hkk] using hk.2⟩
    · intro k hk
      exact h.2 k hk
  · constructor
    · intro k hk
      by_cases hkk : k = mpKey m
      · subst hkk
        exact absurd hk.2 (by simp [stepInr, hl])
      · exact h.1 k ⟨by simpa [stepInr, updO, hkk] using hk.1, hk.2⟩
    · intro k hk
      by_cases hkk : k = mpKey m
      · subst hkk
        simp [stepInr, updO]
      · simp only [stepInr, updO]
        rw [if_neg hkk]
        exact h.2 k (by simpa [stepInr, updO, hkk] using hk)
  · exact h
  · exact h

theorem processOne_trace_construct (th : ℚ) (g : String → SMat) (c : CallState) (m : MP)
    (k : String) :
    countConstruct k (processOne th g c m).trace =
      countConstruct k c.trace +
        (if mpKey m = k ∧ ¬ dictHas c.layer k then 1 else 0) := by
  rcases processOne_split th g c m with
    ⟨hs, hl, (⟨hmr, he⟩ | ⟨gr, hmr, he⟩)⟩ | ⟨hl, he⟩ | ⟨hs, hl, he⟩ <;> rw [he]
  · by_cases hkk : mpKey m = k
    · subst hkk
      rw [if_pos ⟨rfl, by simp [dictHas, hs, hl]⟩]
      simp [stepInl, countConstruct, List.count_append]
    · rw [if_neg (fun hc => hkk hc.1)]
      simp [stepInl, countConstruct, List.count_append, List.count_cons,
        Ne.symm hkk]
  · by_cases hkk : mpKey m = k
    · subst hkk
      rw [if_pos ⟨rfl, by simp [dictHas, hs, hl]⟩]
      simp [stepInr, countConstruct, List.count_append, List.count_cons]
    · rw [if_neg (fun hc => hkk hc.1)]
      simp [stepInr, countConstruct, List.count_append, List.count_cons,
        Ne.symm hkk]
  · rw [if_neg (fun hc => hc.2 (Or.inr (hc.1 ▸ hl)))]
    simp [stepElif, countConstruct]
  · rw [if_neg (fun hc => hc.2 (Or.inl (hc.1 ▸ hs)))]
    exact (Nat.add_zero _).symm

theorem processOne_trace_addParam (th : ℚ) (g : String → SMat) (c : CallState) (m : MP)
    (k : String) :
    countAddParam k (processOne th g c m).trace =
      countAddParam k c.trace +
        (if mpKey m = k ∧ ¬ dictHas c.layer k ∧
            (metapath_reachable_graph th g m).isRight = true then 1 else 0) := by
  rcases processOne_split th g c m with
    ⟨hs, hl, (⟨hmr, he⟩ | ⟨gr, hmr, he⟩)⟩ | ⟨hl, he⟩ | ⟨hs, hl, he⟩ <;> rw [he]
  · rw [if_neg (fun hc => by simp [hmr] at hc)]
    simp [stepInl, countAddParam, List.count_append, List.count_cons]
  · by_cases hkk : mpKey m = k
    · subst hkk
      rw [if_pos ⟨rfl, by simp [dictHas, hs, hl], by simp [hmr]⟩]
      simp [stepInr, countAddParam, List.count_append, List.count_cons]
    · rw [if_neg (fun hc => hkk hc.1)]
      simp [stepInr, countAddParam, List.count_append, List.count_cons,
        Ne.symm hkk]
  · rw [if_neg (fun hc => hc.2.1 (Or.inr (hc.1 ▸ hl)))]
    simp [stepElif, countAddParam]
  · rw [if_neg (fun hc => hc.2.1 (Or.inl (hc.1 ▸ hs)))]
    exact (Nat.add_zero _).symm

theorem foldl_sg_mono {th : ℚ} {g : String → SMat} {ms : List MP} {c : CallState}
    {k : String} (h : (c.layer.sg_dict k).isSome) :
    ((ms.foldl (processOne th g) c).layer.sg_dict k).isSome := by
  induction ms generalizing c with
  | nil => exact h
  | cons m rest ih => exact ih (processOne_sg_mono h)

theorem foldl_large_mono {th : ℚ} {g : String → SMat} {ms : List MP} {c : CallState}
    {k : String} (h : (c.layer.large_graph k).isSome) :
    ((ms.foldl (processOne th g) c).layer.large_graph k).isSome := by
  induction ms generalizing c with
  | nil => exact h
  | cons m rest ih => exact ih (processOne_large_mono h)

theorem foldl_gat_mono {th : ℚ} {g : String → SMat} {ms : List MP} {c : CallState}
    {k : String} (h : (c.layer.gat_layers k).isSome) :
    ((ms.foldl (processOne th g) c).layer.gat_layers k).isSome := by
  induction ms generalizing c with
  | nil => exact h
  | cons m rest ih => exact ih (processOne_gat_mono h)

theorem foldl_dictHas_mono {th : ℚ} {g : String → SMat} {ms : List MP} {c : CallState}
    {k : String} (h : dictHas c.layer k) :
    dictHas ((ms.foldl (processOne th g) c)).layer k := by
  rcases h with h | h
  · exact Or.inl (foldl_sg_mono h)
  · exact Or.inr (foldl_large_mono h)

theorem foldl_good {th : ℚ} {g : String → SMat} {ms : List MP} {c : CallState}
    (h : GoodDicts c.layer) : GoodDicts ((ms.foldl (processOne th g) c)).layer := by
  induction ms generalizing c with
  | nil => exact h
  | cons m rest ih => exact ih (processOne_good h)

theorem foldl_member_has {th : ℚ} {g : String → SMat} (ms : List MP) (c : CallState) :
    ∀ m ∈ ms, dictHas ((ms.foldl (processOne th g) c)).layer (mpKey m) := by
  induction ms generalizing c with
  | nil => intro m hm; cases hm
  | cons m0 rest ih =>
    intro m hm
    rcases List.mem_cons.mp hm with rfl | hm'
    · rw [List.foldl_cons]
      exact foldl_dictHas_mono (processOne_self_has th g c m)
    · exact ih (processOne th g c m0) m hm'

theorem foldl_cached_frame {th : ℚ} {g : String → SMat} (ms : List MP) :
    ∀ (c : CallState) (k : String), dictHas c.layer k →
    ((ms.foldl (processOne th g) c).layer.sg_dict k = c.layer.sg_dict k
    ∧ (ms.foldl (processOne th g) c).layer.large_graph k = c.layer.large_graph k
    ∧ (ms.foldl (processOne th g) c).layer.gat_layers k = c.layer.gat_layers k) := by
  induction ms with
  | nil => exact fun c k _ => ⟨rfl, rfl, rfl⟩
  | cons m0 rest ih =>
    intro c k h
    rw [List.foldl_cons]
    have hfr : (processOne th g c m0).layer.sg_dict k = c.layer.sg_dict k
        ∧ (processOne th g c m0).layer.large_graph k = c.layer.large_graph k
        ∧ (processOne th g c m0).layer.gat_layers k = c.layer.gat_layers k := by
      by_cases hkk : k = mpKey m0
      · subst hkk
        rcases processOne_split th g c m0 with
          ⟨hs, hl, _⟩ | ⟨hl, he⟩ | ⟨hs, hl, he⟩
        · rcases h with h | h
          · rw [hs] at h; exact absurd h (by simp)
          · rw [hl] at h; exact absurd h (by simp)
        · rw [he]; exact ⟨rfl, rfl, rfl⟩
        · rw [he]; exact ⟨rfl, rfl, rfl⟩
      · exact processOne_frame c m0 hkk
    have h1 : dictHas (processOne th g c m0).layer k := by
      rcases h with h | h
      · exact Or.inl (hfr.1 ▸ h)
      · exact Or.inr (hfr.2.1 ▸ h)
    obtain ⟨a1, a2, a3⟩ := ih (processOne th g c m0) k h1
    exact ⟨a1.trans hfr.1, a2.trans hfr.2.1, a3.trans hfr.2.2⟩

theorem foldl_construct_cached {th : ℚ} {g : String → SMat} (ms : List MP) :
    ∀ (c : CallState) (k : String), dictHas c.layer k →
    countConstruct k ((ms.foldl (processOne th g) c)).trace = countConstruct k c.trace := by
  induction ms with
  | nil => exact fun c k _ => rfl
  | cons m0 rest ih =>
    intro c k h
    rw [List.foldl_cons]
    have hstep := processOne_trace_construct th g c m0 k
    rw [if_neg (fun hc => hc.2 h), Nat.add_zero] at hstep
    rw [ih _ k (processOne_dictHas_mono h), hstep]

theorem foldl_construct_le {th : ℚ} {g : String → SMat} (ms : List MP) :
    ∀ (c : CallState) (k : String),
    countConstruct k ((ms.foldl (processOne th g) c)).trace ≤
      countConstruct k c.trace + (if dictHas c.layer k then 0 else 1) := by
  induction ms with
  | nil =>
    intro c k
    exact Nat.le_add_right _ _
  | cons m0 rest ih =>
    intro c k
    rw [List.foldl_cons]
    have hstep := processOne_trace_construct th g c m0 k
    by_cases h : dictHas c.layer k
    · rw [if_neg (fun hc => hc.2 h), Nat.add_zero] at hstep
      rw [foldl_construct_cached rest _ k (processOne_dictHas_mono h), hstep, if_pos h]
      exact Nat.le_add_right _ _
    · by_cases hkk : mpKey m0 = k
      · have h1 : dictHas (processOne th g c m0).layer k :=
          hkk ▸ processOne_self_has th g c m0
        rw [foldl_construct_cached rest _ k h1, hstep, if_pos ⟨hkk, h⟩, if_neg h]
      · rw [if_neg (fun hc => hkk hc.1), Nat.add_zero] at hstep
        have h1 : ¬ dictHas (processOne th g c m0).layer k := by
          intro hh
          have hfr := @processOne_frame th g c m0 k (fun he => hkk he.symm)
          rcases hh with hh | hh
          · exact h (Or.inl (hfr.1 ▸ hh))
          · exact h (Or.inr (hfr.2.1 ▸ hh))
        have h2 := ih (processOne th g c m0) k
        rw [if_neg h1, hstep] at h2
        rw [if_neg h]
        exact h2

theorem foldl_construct_has {th : ℚ} {g : String → SMat} (ms : List MP) :
    ∀ (c : CallState) (k : String),
    countConstruct k c.trace < countConstruct k ((ms.foldl (processOne th g) c)).trace →
    dictHas ((ms.foldl (processOne th g) c)).layer k := by
  induction ms with
  | nil => exact fun c k h => absurd h (lt_irrefl _)
  | cons m0 rest ih =>
    intro c k h
    rw [List.foldl_cons] at h ⊢
    have hstep := processOne_trace_construct th g c m0 k
    by_cases hcond : mpKey m0 = k ∧ ¬ dictHas c.layer k
    · exact foldl_dictHas_mono (hcond.1 ▸ processOne_self_has th g c m0)
    · rw [if_neg hcond, Nat.add_zero] at hstep
      exact ih _ k (hstep ▸ h)

theorem foldl_addParam_cached {th : ℚ} {g : String → SMat} (ms : List MP) :
    ∀ (c : CallState) (k : String), dictHas c.layer k →
    countAddParam k ((ms.foldl (processOne th g) c)).trace = countAddParam k c.trace := by
  induction ms with
  | nil => exact fun c k _ => rfl
  | cons m0 rest ih =>
    intro c k h
    rw [List.foldl_cons]
    have hstep := processOne_trace_addParam th g c m0 k
    rw [if_neg (fun hc => hc.2.1 h), Nat.add_zero] at hstep
    rw [ih _ k (processOne_dictHas_mono h), hstep]

/-- First element of `meta_paths` whose cache key is `k`: the metapath whose
processing decides what happens for key `k` in a forward call. -/
def firstWithKey (ms : List MP) (k : String) : Option MP :=
  ms.find? (fun m => mpKey m == k)

theorem foldl_addParam_fresh {th : ℚ} {g : String → SMat} (ms : List MP) :
    ∀ (c : CallState) (k : String), ¬ dictHas c.layer k →
    countAddParam k ((ms.foldl (processOne th g) c)).trace =
      countAddParam k c.trace +
        (match firstWithKey ms k with
         | none => 0
         | some m => if (metapath_reachable_graph th g m).isRight = true then 1 else 0) := by
  induction ms with
  | nil => intro c k _; simp [firstWithKey]
  | cons m0 rest ih =>
    intro c k h
    rw [List.foldl_cons]
    have hstep := processOne_trace_addParam th g c m0 k
    by_cases hkk : mpKey m0 = k
    · have hfw : firstWithKey (m0 :: rest) k = some m0 := by
        simp [firstWithKey, List.find?_cons, hkk]
      have h1 : dictHas (processOne th g c m0).layer k :=
        hkk ▸ processOne_self_has th g c m0
      rw [foldl_addParam_cached rest _ k h1, hstep, hfw]
      rcases hmr : metapath_reachable_graph th g m0 with d | gr
      · rw [if_neg (fun hc => by simp [hmr] at hc)]
        simp [hmr]
      · rw [if_pos ⟨hkk, h, by simp [hmr]⟩]
        simp [hmr]
    · have hfw : firstWithKey (m0 :: rest) k = firstWithKey rest k := by
        simp [firstWithKey, List.find?_cons, hkk]
      rw [if_neg (fun hc => hkk hc.1), Nat.add_zero] at hstep
      have h1 : ¬ dictHas (processOne th g c m0).layer k := by
        intro hh
        have hfr := @processOne_frame th g c m0 k (fun he => hkk he.symm)
        rcases hh with hh | hh
        · exact h (Or.inl (hfr.1 ▸ hh))
        · exact h (Or.inr (hfr.2.1 ▸ hh))
      rw [ih _ k h1, hstep, hfw]

theorem foldl_paths_eq_pathset {th : ℚ} {g : String → SMat} (ms : List MP) :
    ∀ c : CallState, c.meta_paths = c.meta_pathset →
    ((ms.foldl (processOne th g) c)).meta_paths =
      ((ms.foldl (processOne th g) c)).meta_pathset := by
  induction ms with
  | nil => exact fun c h => h
  | cons m0 rest ih =>
    intro c h
    rw [List.foldl_cons]
    apply ih
    rcases processOne_split th g c m0 with
      ⟨hs, hl, (⟨hmr, he⟩ | ⟨gr, hmr, he⟩)⟩ | ⟨hl, he⟩ | ⟨hs, hl, he⟩ <;>
      rw [he] <;> simp [stepInl, stepInr, stepElif, h]

theorem foldl_pathset_subset {th : ℚ} {g : String → SMat} (ms : List MP) :
    ∀ c : CallState, ((ms.foldl (processOne th g) c)).meta_pathset ⊆ c.meta_pathset := by
  induction ms with
  | nil => exact fun c => List.Subset.refl _
  | cons m0 rest ih =>
    intro c
    rw [List.foldl_cons]
    refine (ih _).trans ?_
    rcases processOne_split th g c m0 with
      ⟨hs, hl, (⟨hmr, he⟩ | ⟨gr, hmr, he⟩)⟩ | ⟨hl, he⟩ | ⟨hs, hl, he⟩ <;> rw [he]
    · exact List.erase_subset _ _
    · exact List.Subset.refl _
    · exact List.erase_subset _ _
    · exact List.Subset.refl _

theorem foldl_pathset_pruned {th : ℚ} {g : String → SMat} (ms : List MP) :
    ∀ (c : CallState), GoodDicts c.layer → ∀ m : MP,
    (((ms.foldl (processOne th g) c)).layer.large_graph (mpKey m)).isSome →
    ((ms.foldl (processOne th g) c)).meta_pathset.count m
      = c.meta_pathset.count m - ms.count m := by
  induction ms with
  | nil =>
    intro c _ m _
    simp
  | cons m0 rest ih =>
    intro c hg m hlfin
    rw [List.foldl_cons] at hlfin ⊢
    have hg1 : GoodDicts (processOne th g c m0).layer := processOne_good hg
    have hgfin : GoodDicts
        ((rest.foldl (processOne th g) (processOne th g c m0))).layer := foldl_good hg1
    rcases processOne_split th g c m0 with
      ⟨hs, hl, (⟨hmr, he⟩ | ⟨gr, hmr, he⟩)⟩ | ⟨hl, he⟩ | ⟨hs, hl, he⟩
    · rw [he] at hlfin hgfin ⊢
      have hg1' : GoodDicts (stepInl c m0 ((metapathAdj g m0).density)).layer := he ▸ hg1
      have hrec := ih _ hg1' m hlfin
      by_cases hmm : m0 = m
      · subst hmm
        rw [hrec, List.count_cons_self]
        have he1 : (stepInl c m0 ((metapathAdj g m0).density)).meta_pathset.count m0
            = c.meta_pathset.count m0 - 1 := List.count_erase_self m0 c.meta_pathset
        omega
      · rw [hrec, List.count_cons_of_ne (fun hc => hmm hc.symm)]
        have he1 : (stepInl c m0 ((metapathAdj g m0).density)).meta_pathset.count m
            = c.meta_pathset.count m :=
          List.count_erase_of_ne (fun hc => hmm hc.symm) c.meta_pathset
        omega
    · rw [he] at hlfin hgfin ⊢
      have hg1' : GoodDicts (stepInr c m0 gr).layer := he ▸ hg1
      by_cases hkeq : mpKey m0 = mpKey m
      · exfalso
        have hsg1 : ((stepInr c m0 gr).layer.sg_dict (mpKey m)).isSome := by
          rw [← hkeq]
          simp [stepInr, updO]
        exact hgfin.1 (mpKey m) ⟨foldl_sg_mono hsg1, hlfin⟩
      · have hmm : m0 ≠ m := fun hc => hkeq (hc ▸ rfl)
        have hrec := ih _ hg1' m hlfin
        rw [hrec, List.count_cons_of_ne (fun hc => hmm hc.symm)]
        rfl
    · rw [he] at hlfin hgfin ⊢
      have hg1' : GoodDicts (stepElif c m0).layer := he ▸ hg1
      have hrec := ih _ hg1' m hlfin
      by_cases hmm : m0 = m
      · subst hmm
        rw [hrec, List.count_cons_self]
        have he1 : (stepElif c m0).meta_pathset.count m0
            = c.meta_pathset.count m0 - 1 := List.count_erase_self m0 c.meta_pathset
        omega
      · rw [hrec, List.count_cons_of_ne (fun hc => hmm hc.symm)]
        have he1 : (stepElif c m0).meta_pathset.count m
            = c.meta_pathset.count m :=
          List.count_erase_of_ne (fun hc => hmm hc.symm) c.meta_pathset
        omega
    · rw [he] at hlfin hgfin ⊢
      by_cases hkeq : mpKey m0 = mpKey m
      · exfalso
        have hsg1 : ((c.layer.sg_dict (mpKey m))).isSome := hkeq ▸ hs
        exact hgfin.1 (mpKey m) ⟨foldl_sg_mono hsg1, hlfin⟩
      · have hmm : m0 ≠ m := fun hc => hkeq (hc ▸ rfl)
        have hrec := ih _ hg m hlfin
        rw [hrec, List.count_cons_of_ne (fun hc => hmm hc.symm)]

theorem foldl_pathset_kept {th : ℚ} {g : String → SMat} (ms : List MP) :
    ∀ (c : CallState), GoodDicts c.layer → ∀ m : MP,
    (((ms.foldl (processOne th g) c)).layer.sg_dict (mpKey m)).isSome →
    ((ms.foldl (processOne th g) c)).meta_pathset.count m
      = c.meta_pathset.count m := by
  induction ms with
  | nil => intro c _ m _; rfl
  | cons m0 rest ih =>
    intro c hg m hsfin
    rw [List.foldl_cons] at hsfin ⊢
    have hg1 : GoodDicts (processOne th g c m0).layer := processOne_good hg
    have hgfin : GoodDicts
        ((rest.foldl (processOne th g) (processOne th g c m0))).layer := foldl_good hg1
    rcases processOne_split th g c m0 with
      ⟨hs, hl, (⟨hmr, he⟩ | ⟨gr, hmr, he⟩)⟩ | ⟨hl, he⟩ | ⟨hs, hl, he⟩
    · rw [he] at hsfin hgfin ⊢
      have hg1' : GoodDicts (stepInl c m0 ((metapathAdj g m0).density)).layer := he ▸ hg1
      by_cases hkeq : mpKey m0 = mpKey m
      · exfalso
        have hl1 : ((stepInl c m0 ((metapathAdj g m0).density)).layer.large_graph
            (mpKey m)).isSome := by
          rw [← hkeq]
          simp [stepInl, updO]
        exact hgfin.1 (mpKey m) ⟨hsfin, foldl_large_mono hl1⟩
      · have hmm : m0 ≠ m := fun hc => hkeq (hc ▸ rfl)
        have hrec := ih _ hg1' m hsfin
        rw [hrec]
        exact List.count_erase_of_ne (fun hc => hmm hc.symm) c.meta_pathset
    · rw [he] at hsfin hgfin ⊢
      have hg1' : GoodDicts (stepInr c m0 gr).layer := he ▸ hg1
      exact ih _ hg1' m hsfin
    · rw [he] at hsfin hgfin ⊢
      have hg1' : GoodDicts (stepElif c m0).layer := he ▸ hg1
      by_cases hkeq : mpKey m0 = mpKey m
      · exfalso
        have hl1 : ((stepElif c m0).layer.large_graph (mpKey m)).isSome := hkeq ▸ hl
        exact hgfin.1 (mpKey m) ⟨hsfin, foldl_large_mono hl1⟩
      · have hmm : m0 ≠ m := fun hc => hkeq (hc ▸ rfl)
        have hrec := ih _ hg1' m hsfin
        rw [hrec]
        exact List.count_erase_of_ne (fun hc => hmm hc.symm) c.meta_pathset
    · rw [he] at hsfin hgfin ⊢
      exact ih _ hg m hsfin

theorem foldl_flag {th : ℚ} {g : String → SMat} (ms : List MP) :
    ∀ (c : CallState), GoodDicts c.layer →
    ((((ms.foldl (processOne th g) c)).layer.useless_flag = true) ↔
      (c.layer.useless_flag = true ∨
        ∃ m ∈ ms, (((ms.foldl (processOne th g) c)).layer.large_graph (mpKey m)).isSome)) := by
  induction ms with
  | nil =>
    intro c _
    simp
  | cons m0 rest ih =>
    intro c hg
    rw [List.foldl_cons]
    have hg1 : GoodDicts (processOne th g c m0).layer := processOne_good hg
    have hgfin : GoodDicts
        ((rest.foldl (processOne th g) (processOne th g c m0))).layer := foldl_good hg1
    have hiff := ih (processOne th g c m0) hg1
    rcases processOne_split th g c m0 with
      ⟨hs, hl, (⟨hmr, he⟩ | ⟨gr, hmr, he⟩)⟩ | ⟨hl, he⟩ | ⟨hs, hl, he⟩
    · rw [he] at hiff hgfin ⊢
      have hlargefin : ((rest.foldl (processOne th g)
          (stepInl c m0 ((metapathAdj g m0).density))).layer.large_graph
            (mpKey m0)).isSome :=
        foldl_large_mono (by simp [stepInl, updO])
      constructor
      · intro _
        exact Or.inr ⟨m0, List.mem_cons_self m0 rest, hlargefin⟩
      · intro _
        exact hiff.mpr (Or.inl rfl)
    · rw [he] at hiff hgfin ⊢
      have hsgfin : ((rest.foldl (processOne th g) (stepInr c m0 gr)).layer.sg_dict
          (mpKey m0)).isSome :=
        foldl_sg_mono (by simp [stepInr, updO])
      constructor
      · intro hfl
        rcases hiff.mp hfl with hc | ⟨m, hm, hlm⟩
        · exact Or.inl hc
        · exact Or.inr ⟨m, List.mem_cons_of_mem m0 hm, hlm⟩
      · intro hor
        rcases hor with hc | ⟨m, hm, hlm⟩
        · exact hiff.mpr (Or.inl hc)
        · rcases List.mem_cons.mp hm with rfl | hm'
          · exact absurd ⟨hsgfin, hlm⟩ (hgfin.1 (mpKey m))
          · exact hiff.mpr (Or.inr ⟨m, hm', hlm⟩)
    · rw [he] at hiff hgfin ⊢
      have hlargefin : ((rest.foldl (processOne th g) (stepElif c m0)).layer.large_graph
          (mpKey m0)).isSome :=
        foldl_large_mono hl
      constructor
      · intro _
        exact Or.inr ⟨m0, List.mem_cons_self m0 rest, hlargefin⟩
      · intro _
        exact hiff.mpr (Or.inl rfl)
    · rw [he] at hiff hgfin ⊢
      have hsgfin : ((rest.foldl (processOne th g) c).layer.sg_dict
          (mpKey m0)).isSome :=
        foldl_sg_mono hs
      constructor
      · intro hfl
        rcases hiff.mp hfl with hc | ⟨m, hm, hlm⟩
        · exact Or.inl hc
        · exact Or.inr ⟨m, List.mem_cons_of_mem m0 hm, hlm⟩
      · intro hor
        rcases hor with hc | ⟨m, hm, hlm⟩
        · exact hiff.mpr (Or.inl hc)
        · rcases List.mem_cons.mp hm with rfl | hm'
          · exact absurd ⟨hsgfin, hlm⟩ (hgfin.1 (mpKey m))
          · exact hiff.mpr (Or.inr ⟨m, hm', hlm⟩)

theorem countConstruct_append (k : String) (a b : List Ev) :
    countConstruct k (a ++ b) = countConstruct k a + countConstruct k b := by
  simp [countConstruct, List.count_append]

theorem foldl_addParam_gat {th : ℚ} {g : String → SMat} (ms : List MP) :
    ∀ (c : CallState) (k : String),
    countAddParam k c.trace < countAddParam k ((ms.foldl (processOne th g) c)).trace →
    (((ms.foldl (processOne th g) c)).layer.gat_layers k).isSome := by
  induction ms with
  | nil => exact fun c k h => absurd h (lt_irrefl _)
  | cons m0 rest ih =>
    intro c k h
    rw [List.foldl_cons] at h ⊢
    have hstep := processOne_trace_addParam th g c m0 k
    by_cases hcond : mpKey m0 = k ∧ ¬ dictHas c.layer k ∧
        (metapath_reachable_graph th g m0).isRight = true
    · obtain ⟨hkk, hfresh, hir⟩ := hcond
      subst hkk
      obtain ⟨gr, hmr⟩ : ∃ gr, metapath_reachable_graph th g m0 = Sum.inr gr := by
        rcases hx : metapath_reachable_graph th g m0 with d | gr
        · rw [hx] at hir
          simp at hir
        · exact ⟨gr, rfl⟩
      have hs : c.layer.sg_dict (mpKey m0) = none := by
        rcases hy : c.layer.sg_dict (mpKey m0) with _ | v
        · rfl
        · exact absurd (Or.inl (by simp [hy])) hfresh
      have hl : c.layer.large_graph (mpKey m0) = none := by
        rcases hy : c.layer.large_graph (mpKey m0) with _ | v
        · rfl
        · exact absurd (Or.inr (by simp [hy])) hfresh
      rw [processOne_fresh_inr hs hl hmr]
      refine foldl_gat_mono ?_
      simp [stepInr, updO]
    · rw [if_neg hcond, Nat.add_zero] at hstep
      exact ih _ k (hstep ▸ h)

theorem runCalls_construct_le (th : ℚ) (g : String → SMat) (k : String)
    (calls : List (List MP)) :
    ∀ (L : LayerDicts) (tr : List Ev),
    countConstruct k tr ≤ 1 → (1 ≤ countConstruct k tr → dictHas L k) →
    countConstruct k
      ((calls.foldl (fun acc ps =>
          ((forwardLoop th g acc.1 ps).layer, acc.2 ++ (forwardLoop th g acc.1 ps).trace))
        (L, tr)).2) ≤ 1 := by
  induction calls with
  | nil => exact fun _ _ h1 _ => h1
  | cons ps rest ih =>
    intro L tr h1 h2
    rw [List.foldl_cons]
    dsimp only
    have hc0 : forwardLoop th g L ps
        = ps.foldl (processOne th g)
            { layer := { L with useless_flag := false }
              meta_paths := ps
              meta_pathset := ps
              trace := [] } := rfl
    have hdeq : dictHas ({ L with useless_flag := false } : LayerDicts) k ↔ dictHas L k :=
      Iff.rfl
    by_cases hd : dictHas L k
    · have hz : countConstruct k (forwardLoop th g L ps).trace = 0 := by
        rw [hc0]
        exact foldl_construct_cached ps _ k (hdeq.mpr hd)
      apply ih
      · rw [countConstruct_append, hz]
        omega
      · intro _
        rw [hc0]
        exact foldl_dictHas_mono (hdeq.mpr hd)
    · have hz : countConstruct k tr = 0 := by
        by_cases h0 : 1 ≤ countConstruct k tr
        · exact absurd (h2 h0) hd
        · omega
      have hle : countConstruct k (forwardLoop th g L ps).trace ≤ 1 := by
        rw [hc0]
        have := @foldl_construct_le th g ps
          { layer := { L with useless_flag := false }
            meta_paths := ps
            meta_pathset := ps
            trace := [] } k
        rw [if_neg (fun hc => hd (hdeq.mp hc))] at this
        simpa [countConstruct] using this
      apply ih
      · rw [countConstruct_append, hz]
        simpa using hle
      · intro hge
        rw [countConstruct_append, hz] at hge
        rw [hc0]
        apply foldl_construct_has
        rw [hc0] at hge
        exact Nat.lt_of_lt_of_le Nat.zero_lt_one (by simpa using hge)

/-- C2: once a metapath's key is in `sg_dict` or `large_graph`,
`HANLayer.forward` never calls `metapath_reachable_graph` for it again (no
`construct` event), its cached subgraph and its previously created GATConv
sublayer are untouched and are the ones looked up by the embedding loop
(every metapath surviving to the second loop has its subgraph in `sg_dict`
and its GATConv in `gat_layers`), and no new parameters are created for it;
over the lifetime of a layer (any sequence of forward calls starting from
`__init__`'s empty caches), each distinct key causes at most one subgraph
construction. -/
theorem C2_cache_reuse (th : ℚ) (g : String → SMat) :
    (∀ (L : LayerDicts) (ps : List MP) (k : String), dictHas L k →
       (countConstruct k (forwardLoop th g L ps).trace = 0
        ∧ (forwardLoop th g L ps).layer.sg_dict k = L.sg_dict k
        ∧ (forwardLoop th g L ps).layer.gat_layers k = L.gat_layers k))
    ∧ (∀ (L : LayerDicts) (ps : List MP), GoodDicts L →
        ∀ m ∈ (forwardLoop th g L ps).meta_paths,
          (((forwardLoop th g L ps).layer.sg_dict (mpKey m)).isSome
           ∧ ((forwardLoop th g L ps).layer.gat_layers (mpKey m)).isSome))
    ∧ (∀ (calls : List (List MP)) (k : String),
        countConstruct k (runCalls th g initDicts calls).2 ≤ 1) := by
  refine ⟨?_, ?_, ?_⟩
  · intro L ps k hd
    have hd0 : dictHas ({ L with useless_flag := false } : LayerDicts) k := hd
    exact ⟨foldl_construct_cached ps _ k hd0,
      (foldl_cached_frame ps _ k hd0).1,
      (foldl_cached_frame ps _ k hd0).2.2⟩
  · intro L ps hg m hm
    have hg0 : GoodDicts ({ L with useless_flag := false } : LayerDicts) := hg
    have hsync : (forwardLoop th g L ps).meta_paths
        = (forwardLoop th g L ps).meta_pathset :=
      foldl_paths_eq_pathset ps _ rfl
    rw [hsync] at hm
    have hmps : m ∈ ps := foldl_pathset_subset ps _ hm
    have hhas : dictHas (forwardLoop th g L ps).layer (mpKey m) :=
      foldl_member_has ps _ m hmps
    have hgfin : GoodDicts (forwardLoop th g L ps).layer := foldl_good hg0
    rcases hhas with hsg | hlg
    · exact ⟨hsg, hgfin.2 (mpKey m) hsg⟩
    · exfalso
      have hz := foldl_pathset_pruned ps _ hg0 m hlg
      rw [Nat.sub_self] at hz
      rw [List.count_eq_zero] at hz
      exact hz hm
  · intro calls k
    apply runCalls_construct_le th g k calls initDicts []
    · simp [countConstruct]
    · intro h
      simp [countConstruct] at h

/-- C4: in any forward call, `optimizer.add_param_group` runs exactly once
for a key precisely when the key is newly discovered (in neither `sg_dict`
nor `large_graph` at call entry) and the construction for the first metapath
bearing that key returns a graph rather than a density float; it never runs
for a cached key, never runs for a key whose construction was pruned, never
runs twice, and when it runs the freshly created GATConv for that key is in
`gat_layers`. -/
theorem C4_optimizer_param_group (th : ℚ) (g : String → SMat) (L : LayerDicts)
    (ps : List MP) (k : String) :
    (dictHas L k → countAddParam k (forwardLoop th g L ps).trace = 0)
    ∧ (¬ dictHas L k →
        countAddParam k (forwardLoop th g L ps).trace =
          (match firstWithKey ps k with
           | none => 0
           | some m => if (metapath_reachable_graph th g m).isRight = true then 1 else 0))
    ∧ countAddParam k (forwardLoop th g L ps).trace ≤ 1
    ∧ (1 ≤ countAddParam k (forwardLoop th g L ps).trace →
        ((forwardLoop th g L ps).layer.gat_layers k).isSome) := by
  have hfresh0 : ∀ h : ¬ dictHas L k,
      countAddParam k (forwardLoop th g L ps).trace =
        (match firstWithKey ps k with
         | none => 0
         | some m => if (metapath_reachable_graph th g m).isRight = true then 1 else 0) := by
    intro h
    have := @foldl_addParam_fresh th g ps
      { layer := { L with useless_flag := false }
        meta_paths := ps
        meta_pathset := ps
        trace := [] } k h
    simpa [countAddParam] using this
  refine ⟨?_, hfresh0, ?_, ?_⟩
  · intro hd
    exact foldl_addParam_cached ps _ k hd
  · by_cases hd : dictHas L k
    · have h0 : countAddParam k (forwardLoop th g L ps).trace = 0 :=
        foldl_addParam_cached ps _ k hd
      omega
    · rw [hfresh0 hd]
      rcases hfw : firstWithKey ps k with _ | m
      · exact Nat.zero_le _
      · show (if (metapath_reachable_graph th g m).isRight = true then 1 else 0) ≤ 1
        split <;> omega
  · intro hge
    apply foldl_addParam_gat ps
      { layer := { L with useless_flag := false }
        meta_paths := ps
        meta_pathset := ps
        trace := [] } k
    exact Nat.lt_of_lt_of_le Nat.zero_lt_one hge

/-- C8: `HANLayer.forward` mutates its caller-supplied `meta_pathset`: every
metapath whose key ends up cached in `large_graph` (pruned now, or in a
previous call via the cache) is removed from `meta_pathset`, and
`useless_flag` — reset to `False` on entry — ends `True` exactly when some
metapath of the call has its key in `large_graph`; metapaths whose key is
cached in `sg_dict` (a usable subgraph) keep their multiplicity in
`meta_pathset` unchanged. -/
theorem C8_meta_pathset_mutation (th : ℚ) (g : String → SMat) (L : LayerDicts)
    (ps : List MP) (hg : GoodDicts L) :
    (∀ m : MP, (((forwardLoop th g L ps).layer.large_graph (mpKey m)).isSome →
        m ∉ (forwardLoop th g L ps).meta_pathset))
    ∧ (∀ m : MP, (((forwardLoop th g L ps).layer.sg_dict (mpKey m)).isSome →
        (forwardLoop th g L ps).meta_pathset.count m = ps.count m))
    ∧ ((forwardLoop th g L ps).layer.useless_flag = true ↔
        ∃ m ∈ ps, ((forwardLoop th g L ps).layer.large_graph (mpKey m)).isSome) := by
  have hg0 : GoodDicts ({ L with useless_flag := false } : LayerDicts) := hg
  refine ⟨?_, ?_, ?_⟩
  · intro m hl
    have hz := foldl_pathset_pruned ps _ hg0 m hl
    rw [Nat.sub_self] at hz
    rw [List.count_eq_zero] at hz
    exact hz
  · intro m hs
    exact foldl_pathset_kept ps _ hg0 m hs
  · have := @foldl_flag th g ps
      { layer := { L with useless_flag := false }
        meta_paths := ps
        meta_pathset := ps
        trace := [] } hg0
    simpa using this

/-- Concrete layer state with the key `"ab"` cached in `sg_dict`, for
witnesses. -/
def LEx : LayerDicts :=
  { sg_dict := fun k => if k = "ab" then some ⟨2, [(0, 0)]⟩ else none
    large_graph := fun _ => none
    gat_layers := fun k => if k = "ab" then some 0 else none
    freshId := 1
    useless_flag := false }

theorem LEx_has : dictHas LEx "ab" := Or.inl (by simp [LEx])

theorem initDicts_good : GoodDicts initDicts :=
  ⟨fun k hk => by simp [initDicts] at hk, fun k hk => by simp [initDicts] at hk⟩

theorem C2_cache_reuse_witness :
    countConstruct "ab" (forwardLoop 2 gEx LEx [["ab"]]).trace = 0
    ∧ countConstruct "x" (runCalls 2 gEx initDicts [[["ab"]], [["ab"]]]).2 ≤ 1 :=
  ⟨((C2_cache_reuse 2 gEx).1 LEx [["ab"]] "ab" LEx_has).1,
   (C2_cache_reuse 2 gEx).2.2 [[["ab"]], [["ab"]]] "x"⟩

theorem C4_optimizer_param_group_witness :
    countAddParam "ab" (forwardLoop 2 gEx LEx [["ab"]]).trace = 0
    ∧ countAddParam "ab" (forwardLoop 2 gEx LEx [["ab"]]).trace ≤ 1 :=
  ⟨(C4_optimizer_param_group 2 gEx LEx [["ab"]] "ab").1 LEx_has,
   (C4_optimizer_param_group 2 gEx LEx [["ab"]] "ab").2.2.1⟩

theorem C8_meta_pathset_mutation_witness :
    ((forwardLoop 2 gEx initDicts [["ab"]]).layer.useless_flag = true ↔
      ∃ m ∈ [["ab"]],
        ((forwardLoop 2 gEx initDicts [["ab"]]).layer.large_graph (mpKey m)).isSome) :=
  (C8_meta_pathset_mutation 2 gEx initDicts [["ab"]] initDicts_good).2.2

/-- C5 (amended): the cache key of a metapath is the concatenation
`''.join(map(str, meta_path))`, which does not identify the metapath
uniquely.  What holds is per-key separation: processing a metapath touches no
cache or sublayer entry at any other key, and metapaths whose element strings
concatenate to the same key share a single cache entry and attention
sublayer. -/
theorem C5_per_key_caching (th : ℚ) (g : String → SMat) :
    (∀ (c : CallState) (m : MP) (k : String), k ≠ mpKey m →
      ((processOne th g c m).layer.sg_dict k = c.layer.sg_dict k
       ∧ (processOne th g c m).layer.large_graph k = c.layer.large_graph k
       ∧ (processOne th g c m).layer.gat_layers k = c.layer.gat_layers k))
    ∧ (∀ m1 m2 : MP, mpKey m1 = mpKey m2 → ∀ L : LayerDicts,
        (L.sg_dict (mpKey m1) = L.sg_dict (mpKey m2)
         ∧ L.gat_layers (mpKey m1) = L.gat_layers (mpKey m2))) :=
  ⟨fun c m k hk => processOne_frame c m hk,
   fun m1 m2 he L => ⟨by rw [he], by rw [he]⟩⟩

theorem C5_per_key_caching_witness :
    (processOne 2 gEx
        { layer := LEx, meta_paths := [], meta_pathset := [], trace := [] }
        ["a"]).layer.sg_dict "zz"
      = LEx.sg_dict "zz" :=
  ((C5_per_key_caching 2 gEx).1
    { layer := LEx, meta_paths := [], meta_pathset := [], trace := [] }
    ["a"] "zz" (by decide)).1

/-- Initial call state of `forwardLoop 2 gEx initDicts [["ab"], ["a", "b"]]`,
for the key-collision counterexample. -/
def cEx0 : CallState :=
  { layer := { initDicts with useless_flag := false }
    meta_paths := [["ab"], ["a", "b"]]
    meta_pathset := [["ab"], ["a", "b"]]
    trace := [] }

/-- Graph constructed for the metapath `["ab"]` on `gEx` (1×1 all-ones
adjacency, one nonzero pair, two output nodes). -/
def grEx : DGLGraph := ⟨2, [(0, 0)]⟩

theorem mrgEx_ab : metapath_reachable_graph 2 gEx ["ab"] = Sum.inr grEx := by
  have hd : ¬ (metapathAdj gEx ["ab"]).density > 2 := by
    norm_num [SMat.density, metapathAdj, gEx, SMat.nnz, SMat.nodePairs, List.range_succ]
  rw [mrg_eq_inr hd]
  decide

theorem forwardLoopEx :
    forwardLoop 2 gEx initDicts [["ab"], ["a", "b"]] = stepInr cEx0 ["ab"] grEx := by
  show List.foldl (processOne 2 gEx) cEx0 [["ab"], ["a", "b"]] = stepInr cEx0 ["ab"] grEx
  rw [List.foldl_cons, processOne_fresh_inr rfl rfl mrgEx_ab, List.foldl_cons,
    processOne_sgHit (by decide) rfl, List.foldl_nil]

/-- C5 counterexample: the cache key does not identify a metapath uniquely.
The distinct metapaths `["ab"]` and `["a", "b"]` have the same key `"ab"`;
run together from a fresh layer, only one subgraph is constructed and only
one GATConv is created (one `construct` and one `addParamGroup` event in the
whole trace), yet both metapaths survive in `meta_pathset` — they share one
cached subgraph and one attention sublayer. -/
theorem C5_key_collision_counterexample :
    mpKey ["ab"] = mpKey ["a", "b"]
    ∧ (["ab"] : MP) ≠ ["a", "b"]
    ∧ (forwardLoop 2 gEx initDicts [["ab"], ["a", "b"]]).trace
        = [Ev.construct "ab", Ev.addParamGroup "ab"]
    ∧ (forwardLoop 2 gEx initDicts [["ab"], ["a", "b"]]).meta_pathset
        = [["ab"], ["a", "b"]] := by
  refine ⟨by decide, by decide, ?_, ?_⟩
  · rw [forwardLoopEx]
    decide
  · rw [forwardLoopEx]
    decide

theorem grun_cons {P : Type} (s : GHState P) (e : GEv P) (evs : List (GEv P)) :
    grun s (e :: evs) = grun (gstep s e) evs := rfl

theorem grun_rest_stable {P : Type} (evs : List (GEv P)) :
    ∀ (s : GHState P) (k : String) (p : P), s.rest k = some p →
    (∀ p2, GEv.create k p2 ∈ evs → p2 = p) →
    (grun s evs).rest k = some p := by
  induction evs with
  | nil => exact fun s k p h _ => h
  | cons e rest ih =>
    intro s k p h huniq
    rw [grun_cons]
    cases e with
    | create k2 p2 =>
      by_cases hk : k2 = k
      · subst hk
        have hp : p2 = p := huniq p2 (List.mem_cons_self _ _)
        subst hp
        refine ih _ _ _ (by simp [gstep, updO]) ?_
        exact fun p3 h3 => huniq p3 (List.mem_cons_of_mem _ h3)
      · refine ih _ _ _ ?_ (fun p3 h3 => huniq p3 (List.mem_cons_of_mem _ h3))
        show (if k = k2 then some p2 else s.rest k) = some p
        rw [if_neg (fun hc => hk hc.symm)]
        exact h
    | updateParam k2 p2 =>
      refine ih _ _ _ h ?_
      exact fun p3 h3 => huniq p3 (List.mem_cons_of_mem _ h3)

theorem grun_create_rest {P : Type} (evs : List (GEv P)) :
    ∀ (s : GHState P) (k : String) (p : P), GEv.create k p ∈ evs →
    (∀ p2, GEv.create k p2 ∈ evs → p2 = p) →
    (grun s evs).rest k = some p := by
  induction evs with
  | nil => intro s k p h _; cases h
  | cons e rest ih =>
    intro s k p hmem huniq
    rw [grun_cons]
    cases e with
    | create k2 p2 =>
      by_cases hk : k2 = k
      · subst hk
        have hp : p2 = p := huniq p2 (List.mem_cons_self _ _)
        subst hp
        refine grun_rest_stable rest _ _ _ (by simp [gstep, updO]) ?_
        exact fun p3 h3 => huniq p3 (List.mem_cons_of_mem _ h3)
      · have hmem2 : GEv.create k p ∈ rest := by
          rcases List.mem_cons.mp hmem with he | hm
          · exact absurd (by injection he with h1 h2; exact h1.symm) hk
          · exact hm
        refine ih _ _ _ hmem2 ?_
        exact fun p3 h3 => huniq p3 (List.mem_cons_of_mem _ h3)
    | updateParam k2 p2 =>
      have hmem2 : GEv.create k p ∈ rest := by
        rcases List.mem_cons.mp hmem with he | hm
        · exact absurd he (by simp)
        · exact hm
      refine ih _ _ _ hmem2 ?_
      exact fun p3 h3 => huniq p3 (List.mem_cons_of_mem _ h3)

/-- C9: after any sequence of GATConv creations and optimizer parameter
updates, `HANLayer.reset` (which loads `rest_layers`'s state dict — the deep
copies taken at creation — into `gat_layers`) restores every per-metapath
GATConv to the values it was created with, undoing any updates made since;
each key is created at most once (the `huniq` hypothesis, guaranteed by the
`sg_dict` guard proved in C2), and `HAN.reset` applies the layer reset to
every layer of the list. -/
theorem C9_reset_restores (P : Type) (s0 : GHState P) (evs : List (GEv P)) (k : String)
    (p : P) (hmem : GEv.create k p ∈ evs)
    (huniq : ∀ p2, GEv.create k p2 ∈ evs → p2 = p) :
    ((greset (grun s0 evs)).gat k = some p)
    ∧ (∀ ls : List (GHState P), hanGReset ls = ls.map greset)
    ∧ (∀ (ls : List (GHState P)) (s : GHState P), s ∈ ls → greset s ∈ hanGReset ls) := by
  refine ⟨?_, fun ls => rfl, fun ls s hs => List.mem_map_of_mem greset hs⟩
  show (grun s0 evs).rest k = some p
  exact grun_create_rest evs s0 k p hmem huniq

theorem C9_reset_restores_witness :
    (greset (grun (⟨fun _ => none, fun _ => none⟩ : GHState Nat)
      [GEv.create "ab" 5, GEv.updateParam "ab" 9])).gat "ab" = some 5 :=
  (C9_reset_restores Nat ⟨fun _ => none, fun _ => none⟩
    [GEv.create "ab" 5, GEv.updateParam "ab" 9] "ab" 5
    (List.mem_cons_self _ _)
    (fun p2 h => by simpa using h)).1

end HANSpec
